import Mathlib

/-!
Verification development for the incremental region-tile renderer
(`src/update_detector.rs`, `src/dimension.rs`, `src/dim_renderer.rs`,
`src/main.rs`).  The Rust code is shallowly embedded: pure functions become
Lean functions, the stateful rendering pipeline becomes explicit state
passing (the code runs its thread pool with width 1, so the run is a
sequential fold over the work map), fallible code returns `Option`/`Except`,
and machine integers (`u8`, `u32`, `usize`, `i32`) are modelled as
`Nat`/`Int` (no arithmetic in the sources can overflow: timestamps are read
from 4 bytes, coordinates stay tiny).
-/

/-- `pub type CCoord = usize` (update_detector.rs:10). -/
abbrev CCoord := Nat

/-- `pub type RCoord = i32` (update_detector.rs:9). -/
abbrev RCoord := Int

/-- `pub struct CLoc(pub CCoord, pub CCoord)` (update_detector.rs:15).
Field `x` models the Rust field `.0`, field `z` models `.1`; the fields
are spelled `Nat` (= `CCoord`) directly. -/
@[ext]
structure CLoc where
  x : Nat
  z : Nat
deriving DecidableEq, Repr

/-- `pub struct RLoc(pub RCoord, pub RCoord)` (update_detector.rs:29); the
fields are spelled `Int` (= `RCoord`) directly. -/
@[ext]
structure RLoc where
  x : Int
  z : Int
deriving DecidableEq, Repr

/-- `CLoc::offset` (update_detector.rs:45-53): checked offset inside the
`[0,32) × [0,32)` chunk grid; `Err(InvalidOffsetError)` becomes `none`. -/
def CLoc.offset (c : CLoc) (dx dz : Int) : Option CLoc :=
  let nx : Int := (c.x : Int) + dx
  let nz : Int := (c.z : Int) + dz
  if nx < 0 ∨ 32 ≤ nx then none
  else if nz < 0 ∨ 32 ≤ nz then none
  else some ⟨nx.toNat, nz.toNat⟩

/-- `RLoc::offset` (update_detector.rs:57-59): unchecked region offset. -/
def RLoc.offset (r : RLoc) (dx dz : RCoord) : RLoc :=
  ⟨r.x + dx, r.z + dz⟩

/-- `pub struct RegionTimestamps { pub rawdata: [u8; 4096] }`
(update_detector.rs:62-64).  The fixed-size byte array is a function out of
`Fin 4096`; bytes are `Nat` (every byte placed into it by the code is
below 256). -/
@[ext]
structure RegionTimestamps where
  rawdata : Fin 4096 → Nat

/-- `u32::from_be_bytes` (update_detector.rs:118). -/
def fromBeBytes (b0 b1 b2 b3 : Nat) : Nat :=
  ((b0 * 256 + b1) * 256 + b2) * 256 + b3

/-- Byte access into the fixed array; the out-of-range branch is dead code
for every call the embedded functions make (indices stay below 4096). -/
def RegionTimestamps.byte (rt : RegionTimestamps) (j : Nat) : Nat :=
  if h : j < 4096 then rt.rawdata ⟨j, h⟩ else 0

/-- One entry of `RegionTimestamps::to_tsarray` (update_detector.rs:112-122):
the cursor reads the 4 bytes `4*i .. 4*i+3` big-endian for index `i`; only
indices `i < 1024` are ever used, where all four byte reads are in range. -/
def RegionTimestamps.tsval (rt : RegionTimestamps) (i : Nat) : Nat :=
  fromBeBytes (rt.byte (4 * i)) (rt.byte (4 * i + 1))
    (rt.byte (4 * i + 2)) (rt.byte (4 * i + 3))

/-- `RegionTimestamps::to_tsarray` (update_detector.rs:112-122) as the
array of decoded timestamps, indexed by `0..1024`.  On a 4096-byte array
the cursor reads never fail, so the `io::Result` is dropped. -/
def RegionTimestamps.to_tsarray (rt : RegionTimestamps) : Nat → Nat :=
  rt.tsval

/-- The snapshot side of the comparison in `diffs`
(update_detector.rs:125-128): a missing snapshot reads as the all-zero
array. -/
def snapshot_tsarray : Option RegionTimestamps → Nat → Nat
  | some o => o.to_tsarray
  | none => fun _ => 0

/-- `RegionTimestamps::diffs` (update_detector.rs:123-139): scan indices
`0..1024`; keep `i` when `me_ar[i] > 0 && me_ar[i] != other_ar[i]`; emit
`(i % 32, i / 32)`. -/
def RegionTimestamps.diffs (rt : RegionTimestamps) (other : Option RegionTimestamps) :
    List (CCoord × CCoord) :=
  ((List.range 1024).filter
      (fun i => decide (0 < rt.to_tsarray i ∧ rt.to_tsarray i ≠ snapshot_tsarray other i))).map
    (fun i => (i % 32, i / 32))

/-- `RegionTimestamps::save_cache` (update_detector.rs:93-95): the bytes
written to the cache file, in index order. -/
def RegionTimestamps.save_cache (rt : RegionTimestamps) : List Nat :=
  List.ofFn rt.rawdata

/-- `RegionTimestamps::new` (update_detector.rs:86-92): `read_exact` of
4096 bytes from the stream; a short stream is an `io` error (`none`). -/
def RegionTimestamps.new (region_data : List Nat) : Option RegionTimestamps :=
  if 4096 ≤ region_data.length then
    some ⟨fun j => region_data.getD j.val 0⟩
  else
    none

/-- `RegionTimestamps::from_cachedata` (update_detector.rs:83-85). -/
def RegionTimestamps.from_cachedata (cache_data : List Nat) : Option RegionTimestamps :=
  RegionTimestamps.new cache_data

/-- `RegionTimestamps::from_regiondata` (update_detector.rs:79-82): seek to
offset 4096, then read the table. -/
def RegionTimestamps.from_regiondata (region_data : List Nat) : Option RegionTimestamps :=
  RegionTimestamps.new (region_data.drop 4096)

/-- `impl PartialEq for RegionTimestamps` (update_detector.rs:142-146):
equality of the raw 4096-byte arrays. -/
def RegionTimestamps.beq (a b : RegionTimestamps) : Prop :=
  a.rawdata = b.rawdata

/-! ## Dependency scanner (`src/dimension.rs`)

`Dimension::from_dimdir` enumerates region files, diffs each region's
timestamp table against the cached snapshot, and builds the work map
`render_regions : HashMap<RLoc, HashSet<CLoc>>`.  The directory walk and
filename regex are filesystem I/O; the embedding takes the enumerated
`(rloc, region table, optional snapshot)` triples as input.  Hash maps and
hash sets keep their membership semantics; they are modelled as
association lists / lists kept duplicate-free in insertion order. -/

/-- `HashSet<CLoc>::insert`: idempotent insertion. -/
def insertCLoc (c : CLoc) (cs : List CLoc) : List CLoc :=
  if c ∈ cs then cs else cs ++ [c]

/-- `share_borrow_mut_with(&render_regions, key, Default::default)` followed
by an insert into the set behind the key (dimension.rs:31-36, 85-104):
insert `c` into the (created-on-demand) set of `r`. -/
def workMapInsert (wm : List (RLoc × List CLoc)) (r : RLoc) (c : CLoc) :
    List (RLoc × List CLoc) :=
  match wm with
  | [] => [(r, [c])]
  | (r', cs) :: t =>
      if r' = r then (r', insertCLoc c cs) :: t else (r', cs) :: workMapInsert t r c

/-- `Dimension::from_dimdir` (dimension.rs:39-134), from the point where the
region files have been enumerated and read.  Returns the
`timestamps` snapshot-to-persist map and the `render_regions` work map.
For a diffed chunk `(x, z)`: the chunk itself is marked, and its south
neighbour is marked — locally as `(x, z+1)` when `z <= 15`
(`CLoc::from(cloc).offset(0, 1)`, always in range there), otherwise as
`(x, z-16)` in the region one step south (`cloc.offset(0, -16)`, always in
range for the `z <= 31` values `diffs` produces). -/
def from_dimdir (regions : List (RLoc × RegionTimestamps × Option RegionTimestamps)) :
    List (RLoc × RegionTimestamps) × List (RLoc × List CLoc) :=
  regions.foldl
    (fun acc entry =>
      let rloc := entry.1
      let region := entry.2.1
      let cache := entry.2.2
      let diff := region.diffs cache
      if diff = [] then acc
      else
        let timestamps := acc.1 ++ [(rloc, region)]
        let render_regions := diff.foldl
          (fun wm cloc_tuple =>
            let cloc : CLoc := ⟨cloc_tuple.1, cloc_tuple.2⟩
            let wm := workMapInsert wm rloc cloc
            if cloc.z ≤ 15 then
              -- "in the region"
              workMapInsert wm rloc ⟨cloc.x, cloc.z + 1⟩
            else
              -- "In South region"
              workMapInsert wm (rloc.offset 0 1) ⟨cloc.x, cloc.z - 16⟩)
          acc.2
        (timestamps, render_regions))
    ([], [])

/-! ## Tile cache pipeline (`src/dim_renderer.rs`)

`DimensionRenderer::render_all` runs one task per work-map partition on
`ThreadPool::new(1)` — a pool of width one, so the tasks run sequentially
in submission order.  The run is embedded as a fold over the work-map
entries (theorems quantify over the entry order).  Region files and chunk
payloads are supplied by a `World` oracle; `TopShadeRenderer::render` is
the opaque shading collaborator `Shade`. -/

/-- Outcome of `Region::read_chunk` + `JavaChunk::from_bytes` for one chunk:
no stored data (`Ok(None)`), stored data that fails to decode
(`from_bytes` returns `Err`), or a decoded chunk (abstracted to a `Nat`
payload). -/
inductive RawChunk where
  | absent
  | invalid
  | valid (data : Nat)
deriving DecidableEq, Repr

/-- A region file's chunk contents. -/
abbrev Region := CLoc → RawChunk

/-- `RegionFileLoader::region`: `none` when the region file is absent. -/
abbrev World := RLoc → Option Region

/-- `enum RegionProgress` (dim_renderer.rs:21-28).  `endRegion` models the
source constructor `End` (a reserved word here), `endAll` models `EndAll`. -/
inductive RegionProgress where
  | beginAll (total : Nat)
  | endAll
  | begin (rloc : RLoc) (count : Nat)
  | step (rloc : RLoc)
  | endRegion (rloc : RLoc)
deriving DecidableEq, Repr

/-- One RGBA pixel, abstracted. -/
abbrev Rgba := Nat

/-- The 512×512 region canvas (`Vec<fastanvil::Rgba>` of length `512*512`),
as a flat-index function; only indices below `512*512` are meaningful. -/
abbrev Canvas := Nat → Rgba

/-- The shading collaborator `TopShadeRenderer::render(chunk, north?)`
(dim_renderer.rs:172-174): produces the 16×16 patch as a function from the
flat patch index `y*16 + x`. -/
abbrev Shade := Nat → Option Nat → Nat → Rgba

/-- The shared mutable state of one `render_all` run:
`regions`/`chunks` are the two caches of `DimensionRendererInner`
(dim_renderer.rs:34-35), `remind` is `regions_remind`
(dim_renderer.rs:200-201), `trace` accumulates the progress events sent so
far, and `decodes` logs every `JavaChunk::from_bytes` call (one entry per
decode, used to state the memoization contract). -/
structure RState where
  regions : List RLoc
  chunks : List ((RLoc × CLoc) × Nat)
  decodes : List (RLoc × CLoc)
  remind : List RLoc
  trace : List RegionProgress
deriving DecidableEq, Repr

/-- `HashMap` lookup on an association list. -/
def alookup {α β : Type} [DecidableEq α] (k : α) : List (α × β) → Option β
  | [] => none
  | (k', v) :: t => if k' = k then some v else alookup k t

/-- `DimensionRenderer::get_region` (dim_renderer.rs:43-72): memoized
region-file opening.  A cached `rloc` was inserted when `loader.region`
returned it, so returning `w rloc` on a hit returns the cached handle
(runs start with an empty cache). -/
def get_region (w : World) (s : RState) (rloc : RLoc) : Option Region × RState :=
  if rloc ∈ s.regions then (w rloc, s)
  else
    match w rloc with
    | some region => (some region, { s with regions := s.regions ++ [rloc] })
    | none => (none, s)

/-- `DimensionRenderer::get_chunk` (dim_renderer.rs:74-110): double-checked
memoized chunk decoding.  The run is sequential (pool width 1), so the
re-check under the write lock re-reads an unchanged map and the two checks
collapse into one lookup.  `read_chunk` returning no data gives `none`;
`JavaChunk::from_bytes(..).unwrap()` on undecodable data panics, modelled
as `Except.error`. -/
def get_chunk (w : World) (s : RState) (rloc : RLoc) (cloc : CLoc) :
    Except Unit (Option Nat × RState) :=
  match alookup (rloc, cloc) s.chunks with
  | some chunk => .ok (some chunk, s)
  | none =>
    match (get_region w s rloc).1 with
    | none => .ok (none, (get_region w s rloc).2)
    | some region =>
      match region cloc with
      | .absent => .ok (none, (get_region w s rloc).2)
      | .invalid => .error ()
      | .valid data =>
          .ok (some data,
            { (get_region w s rloc).2 with
                chunks := (get_region w s rloc).2.chunks ++ [((rloc, cloc), data)],
                decodes := (get_region w s rloc).2.decodes ++ [(rloc, cloc)] })

/-- The chunk the world holds at a key, if present and decodable. -/
def chunkAt (w : World) (k : RLoc × CLoc) : Option Nat :=
  match w k.1 with
  | none => none
  | some region =>
    match region k.2 with
    | .valid data => some data
    | _ => none

/-- `DimensionRenderer::render_chunk` (dim_renderer.rs:156-176): fetch the
chunk (skip when missing), fetch the north context — the last row (`z=31`)
of the region one step north when `cloc.z = 0`, else `(x, z-1)` of the same
region (`cloc.offset(0,-1).unwrap()`, in range whenever `z < 32`) — and
shade. -/
def render_chunk (w : World) (sh : Shade) (s : RState) (rloc : RLoc) (cloc : CLoc) :
    Except Unit (Option (Nat → Rgba) × RState) :=
  match get_chunk w s rloc cloc with
  | .error e => .error e
  | .ok (none, s') => .ok (none, s')
  | .ok (some chunk, s') =>
    let north :=
      if cloc.z = 0 then get_chunk w s' (rloc.offset 0 (-1)) ⟨cloc.x, 31⟩
      else get_chunk w s' rloc ⟨cloc.x, cloc.z - 1⟩
    match north with
    | .error e => .error e
    | .ok (chunk_north, s'') => .ok (some (sh chunk chunk_north), s'')

/-- The pixel blit of dim_renderer.rs:139-149: copy the 16×16 patch of
`cloc` into the canvas, row by row — pixel `(cloc.z*16+y)*512 +
cloc.x*16 + k` receives patch entry `y*16 + k` (for an in-range `cloc`,
exactly the indices whose row block is `cloc.z` and column block is
`cloc.x`). -/
def blit (cloc : CLoc) (chunk_buf : Nat → Rgba) (buf : Canvas) : Canvas :=
  fun idx =>
    if idx < 512 * 512 ∧ idx / 512 / 16 = cloc.z ∧ idx % 512 / 16 = cloc.x then
      chunk_buf (idx / 512 % 16 * 16 + idx % 512 % 16)
    else buf idx

/-- The canvas indices belonging to sub-unit `cloc`'s 16×16 patch. -/
def inBlock (cloc : CLoc) (idx : Nat) : Prop :=
  idx < 512 * 512 ∧ (idx / 512) / 16 = cloc.z ∧ (idx % 512) / 16 = cloc.x

instance (cloc : CLoc) (idx : Nat) : Decidable (inBlock cloc idx) := by
  unfold inBlock; infer_instance

/-- The `for cloc in clocs` loop of `DimensionRenderer::render_region`
(dim_renderer.rs:135-152): one `Step` event per chunk, whether or not the
chunk rendered; a decode panic aborts the task. -/
def render_loop (w : World) (sh : Shade) (rloc : RLoc) :
    List CLoc → Canvas → RState → Except Unit (Canvas × RState)
  | [], buf, s => .ok (buf, s)
  | cloc :: rest, buf, s =>
    match render_chunk w sh s rloc cloc with
    | .error e => .error e
    | .ok (none, s') =>
        render_loop w sh rloc rest buf
          { s' with trace := s'.trace ++ [.step rloc] }
    | .ok (some chunk_buf, s') =>
        render_loop w sh rloc rest (blit cloc chunk_buf buf)
          { s' with trace := s'.trace ++ [.step rloc] }

/-- `DimensionRenderer::render_region` (dim_renderer.rs:124-154).  At its
only call site the partition is a work-map key, so the `render_regions`
lookup always succeeds and the early-return branch is dead; the chunk set
is passed in directly. -/
def render_region (w : World) (sh : Shade) (s : RState) (rloc : RLoc)
    (clocs : List CLoc) (buf : Canvas) : Except Unit (Canvas × RState) :=
  render_loop w sh rloc clocs buf
    { s with trace := s.trace ++ [.begin rloc clocs.length] }

/-- One pool task of `DimensionRenderer::render_all`
(dim_renderer.rs:209-251): load the starting canvas (abstracted into
`init_img`, the zero canvas under `nocache` or a missing image), render,
atomically remove this partition from `regions_remind` and test both
neighbours, evict from the chunk cache with the source's retain predicate,
save the image and the snapshot (file writes, modelled for the snapshot
separately under the cache modes), and send `End`. -/
def render_task (w : World) (sh : Shade) (init_img : RLoc → Canvas)
    (s : RState) (rloc : RLoc) (clocs : List CLoc) : Except Unit RState :=
  match render_region w sh s rloc clocs (init_img rloc) with
  | .error e => .error e
  | .ok (_new_image, s₁) =>
    let north_region := rloc.offset 0 (-1)
    let south_region := rloc.offset 0 1
    let remind' := s₁.remind.erase rloc
    let exist_north : Bool := north_region ∈ remind'
    let exist_south : Bool := south_region ∈ remind'
    let chunks' := s₁.chunks.filter
      (fun p =>
        ! decide ((p.1.1 = rloc ∧ p.1.2.z < 15) ∨
                  (p.1.1 = rloc ∧ p.1.2.z = 15 ∧ exist_south = false) ∨
                  (p.1.1 = north_region ∧ exist_north = false)))
    .ok { s₁ with
            remind := remind',
            chunks := chunks',
            trace := s₁.trace ++ [.endRegion rloc] }

/-- `DimensionRenderer::render_all` (dim_renderer.rs:196-255): `BeginAll`
with the summed work-set sizes, one task per work-map entry on the
width-one pool (sequential, in iteration order), `pool.join()`, `EndAll`. -/
def render_all (w : World) (sh : Shade) (init_img : RLoc → Canvas)
    (render_regions : List (RLoc × List CLoc)) : Except Unit RState :=
  match List.foldlM (fun s p => render_task w sh init_img s p.1 p.2)
      { regions := [], chunks := [], decodes := [],
        remind := render_regions.map Prod.fst,
        trace := [.beginAll ((render_regions.map (fun p => p.2.length)).sum)] }
      render_regions with
  | .error e => .error e
  | .ok s => .ok { s with trace := s.trace ++ [.endAll] }

/-- The contiguous block of progress events one partition's task emits:
`Begin(rloc, |clocs|)`, one `Step(rloc)` per chunk, `End(rloc)`. -/
def regionBlock (rloc : RLoc) (clocs : List CLoc) : List RegionProgress :=
  RegionProgress.begin rloc clocs.length ::
    (clocs.map (fun _ => RegionProgress.step rloc) ++ [RegionProgress.endRegion rloc])

/-! ## Cache modes (`src/main.rs`) -/

/-- `enum CacheMode` (main.rs:53-59). -/
inductive CacheMode where
  | default
  | refresh
  | readOnly
  | noCache
deriving DecidableEq, Repr

/-- `let nocache = args.cache_mode == CacheMode::NoCache || args.cache_mode
== CacheMode::Refresh` (main.rs:107). -/
def nocache (m : CacheMode) : Bool :=
  m == CacheMode.noCache || m == CacheMode.refresh

/-- `let cache_ro = args.cache_mode == CacheMode::ReadOnly` (main.rs:108). -/
def cache_ro (m : CacheMode) : Bool :=
  m == CacheMode.readOnly

/-- Modelled from the spec: the five-argument
`Dimension::from_dimdir(dim_path, cache_path, bounds, nocache, cache_ro)`
called at main.rs:109 is not in `src/` (src holds an older two-argument
version that always loads snapshots).  Spec §4.2/§6: under a `nocache`
mode the prior snapshot is skipped entirely, "yielding cold-start diff
semantics"; under read-only the scan "diff[s] normally", exactly as in the
default mode. -/
def from_dimdir_with_mode (mode : CacheMode)
    (regions : List (RLoc × RegionTimestamps × Option RegionTimestamps)) :
    List (RLoc × RegionTimestamps) × List (RLoc × List CLoc) :=
  from_dimdir
    (regions.map (fun p => (p.1, p.2.1, if nocache mode then none else p.2.2)))

/-- Modelled from the spec: the per-partition
`Dimension::save_cache(&rloc)` called at dim_renderer.rs:248 is not in
`src/` (src holds an older whole-dimension `save_cache(&self)`).  Spec
§4.3 step 5: "persist the pending snapshot for this partition (no-op
under a read-only cache mode)"; §6: `disabled` "skip[s] all cache I/O".
Returns the snapshot file writes performed, as `(coordinate, bytes)`
pairs. -/
def save_cache_for_region (mode : CacheMode) (rloc : RLoc)
    (timestamps : List (RLoc × RegionTimestamps)) : List (RLoc × List Nat) :=
  if mode = CacheMode.readOnly ∨ mode = CacheMode.noCache then []
  else
    match alookup rloc timestamps with
    | some rt => [(rloc, rt.save_cache)]
    | none => []

/-- Consistency of the chunk cache with the world: every cached entry is
the decode of the world's data at its key. -/
def ChunksConsistent (w : World) (chunks : List ((RLoc × CLoc) × Nat)) : Prop :=
  ∀ p ∈ chunks, chunkAt w p.1 = some p.2

/-- An over-approximation of the cache keys the task rendering `rloc` can
request: keys of its own partition (each work chunk and its in-partition
north neighbour), and row-31 keys of the partition one step north (the
north neighbours of its row-0 chunks). -/
def taskRequests (rloc : RLoc) (k : RLoc × CLoc) : Prop :=
  k.1 = rloc ∨ (k.1 = rloc.offset 0 (-1) ∧ k.2.z = 31)

/-- The invariant maintained between tasks of a run (`rest` is the list of
partitions still to be processed): no key was decoded twice; a decoded key
either is still cached or can no longer be requested by any remaining
task; only decoded keys are cached; the cache agrees with the world; and
`regions_remind` is exactly the remaining partitions. -/
structure RunInv (w : World) (rest : List RLoc) (s : RState) : Prop where
  nodupDecodes : s.decodes.Nodup
  decodedInCacheOrDead : ∀ k ∈ s.decodes,
    (∃ data, (k, data) ∈ s.chunks) ∨ ∀ r ∈ rest, ¬ taskRequests r k
  cacheDecoded : ∀ p ∈ s.chunks, p.1 ∈ s.decodes
  consistent : ChunksConsistent w s.chunks
  remindEq : s.remind = rest

/-! ## Concrete inputs used by the evidence and witness theorems -/

/-- The single-partition work map used by the witness runs. -/
def wmOne : List (RLoc × List CLoc) := [(⟨0, 0⟩, [⟨0, 0⟩])]

/-- The final state of the run of `render_all` over `wmOne` in
`worldAllValid`: chunk (0,0) is decoded, its north context is missing
(no region at (0,-1)), the canvas is saved, every cache entry of the
finished partition is evicted (row 0 is below every threshold). -/
def sOne : RState :=
  { regions := [⟨0, 0⟩], chunks := [], decodes := [(⟨0, 0⟩, ⟨0, 0⟩)],
    remind := [],
    trace := [.beginAll 1, .begin ⟨0, 0⟩ 1, .step ⟨0, 0⟩, .endRegion ⟨0, 0⟩, .endAll] }

/-- A work map with one partition and two vertically adjacent chunks: the
second chunk's north context is the first chunk, exercising a cache hit. -/
def wmTwo : List (RLoc × List CLoc) := [(⟨0, 0⟩, [⟨0, 0⟩, ⟨0, 1⟩])]

/-- The final state of the run of `render_all` over `wmTwo` in
`worldAllValid`: both chunks are decoded exactly once — the north context
of (0,1) is the already-cached (0,0). -/
def sTwo : RState :=
  { regions := [⟨0, 0⟩], chunks := [],
    decodes := [(⟨0, 0⟩, ⟨0, 0⟩), (⟨0, 0⟩, ⟨0, 1⟩)],
    remind := [],
    trace := [.beginAll 2, .begin ⟨0, 0⟩ 2, .step ⟨0, 0⟩, .step ⟨0, 0⟩,
      .endRegion ⟨0, 0⟩, .endAll] }

/-- A timestamp table whose single nonzero entry is index 997 = 31*32 + 5:
chunk (x=5, z=31) carries timestamp 1 (byte 3991 is its low byte). -/
def tableChunk5_31 : RegionTimestamps :=
  ⟨fun j => if j.val = 3991 then 1 else 0⟩

/-- A world holding exactly region (0,0), with every chunk present and
decodable (payload 7). -/
def worldAllValid : World :=
  fun r => if r = ⟨0, 0⟩ then some (fun _ => .valid 7) else none

/-- Region (0,0) whose chunk (1,1) holds data that fails to decode; chunk
(0,0) is absent; every other chunk is decodable. -/
def regionBadChunk : Region :=
  fun c => if c = ⟨1, 1⟩ then .invalid else if c = ⟨0, 0⟩ then .absent else .valid 3

/-- A world holding exactly region (0,0) = `regionBadChunk`. -/
def worldBadChunk : World :=
  fun r => if r = ⟨0, 0⟩ then some regionBadChunk else none

/-- A world holding exactly region (0,0), where chunk (0,0) is absent and
everything else is decodable. -/
def worldOneAbsent : World :=
  fun r => if r = ⟨0, 0⟩ then some (fun c => if c = ⟨0, 0⟩ then .absent else .valid 5)
           else none

/-- A trivial shading collaborator. -/
def shade0 : Shade := fun _ _ _ => 0

/-- Blank starting canvases for every partition. -/
def img0 : RLoc → Canvas := fun _ _ => 0

/-- The state a run starts from, before `BeginAll`. -/
def emptyState : RState := ⟨[], [], [], [], []⟩

section DiffEngineTheorems

set_option maxRecDepth 100000 in
/-- Sanity check: a table with a single nonzero timestamp at index 997
(chunk x=5, z=31) diffs to exactly that chunk. -/
example :
    RegionTimestamps.diffs ⟨fun j => if j.val = 3991 then 1 else 0⟩ none = [(5, 31)] := by
  decide

/-- Membership in `diffs`, unfolded to the index-level condition. -/
theorem diffs_mem_iff (rt : RegionTimestamps) (other : Option RegionTimestamps)
    (x z : CCoord) :
    (x, z) ∈ rt.diffs other ↔
      ∃ i, i < 1024 ∧ x = i % 32 ∧ z = i / 32 ∧ 0 < rt.to_tsarray i ∧
        rt.to_tsarray i ≠ snapshot_tsarray other i := by
  unfold RegionTimestamps.diffs
  simp only [List.mem_map, List.mem_filter, List.mem_range, decide_eq_true_eq,
    Prod.mk.injEq]
  constructor
  · rintro ⟨i, ⟨hi, h0, hne⟩, hx, hz⟩
    exact ⟨i, hi, hx.symm, hz.symm, h0, hne⟩
  · rintro ⟨i, hi, hx, hz, h0, hne⟩
    exact ⟨i, ⟨hi, h0, hne⟩, hx.symm, hz.symm⟩

/-- C1: `diffs(T, S)` contains exactly the coordinates `(i mod 32, i div 32)`
for the indices `i < 1024` with `T[i] ≠ 0` and (`S` absent or `S[i] ≠ T[i]`);
with no snapshot it yields exactly the nonzero coordinates, and
`diffs(T, T)` is empty. -/
theorem c1_diffs_characterization (rt other : RegionTimestamps) (x z : CCoord) :
    ((x, z) ∈ rt.diffs (some other) ↔
      ∃ i, i < 1024 ∧ x = i % 32 ∧ z = i / 32 ∧
        rt.to_tsarray i ≠ 0 ∧ other.to_tsarray i ≠ rt.to_tsarray i) ∧
    ((x, z) ∈ rt.diffs none ↔
      ∃ i, i < 1024 ∧ x = i % 32 ∧ z = i / 32 ∧ rt.to_tsarray i ≠ 0) ∧
    rt.diffs (some rt) = [] := by
  refine ⟨?_, ?_, ?_⟩
  · rw [diffs_mem_iff]
    constructor
    · rintro ⟨i, hi, hx, hz, h0, hne⟩
      exact ⟨i, hi, hx, hz, Nat.pos_iff_ne_zero.mp h0, fun h => hne h.symm⟩
    · rintro ⟨i, hi, hx, hz, h0, hne⟩
      exact ⟨i, hi, hx, hz, Nat.pos_iff_ne_zero.mpr h0, fun h => hne h.symm⟩
  · rw [diffs_mem_iff]
    constructor
    · rintro ⟨i, hi, hx, hz, h0, _⟩
      exact ⟨i, hi, hx, hz, Nat.pos_iff_ne_zero.mp h0⟩
    · rintro ⟨i, hi, hx, hz, h0⟩
      exact ⟨i, hi, hx, hz, Nat.pos_iff_ne_zero.mpr h0, h0⟩
  · unfold RegionTimestamps.diffs
    have h : (List.range 1024).filter
        (fun i => decide (0 < rt.to_tsarray i ∧ rt.to_tsarray i ≠
          snapshot_tsarray (some rt) i)) = [] := by
      apply List.filter_eq_nil_iff.mpr
      intro i _
      simp [snapshot_tsarray, RegionTimestamps.to_tsarray]
    rw [h]
    rfl

/-- C10: the list `diffs` returns is strictly increasing in scan order
(the index `i = z*32 + x`), hence each changed coordinate appears exactly
once. -/
theorem c10_diffs_sorted_nodup (rt : RegionTimestamps) (other : Option RegionTimestamps) :
    (rt.diffs other).Pairwise (fun p q => p.2 * 32 + p.1 < q.2 * 32 + q.1) ∧
    (rt.diffs other).Nodup := by
  have hpair : (rt.diffs other).Pairwise (fun p q => p.2 * 32 + p.1 < q.2 * 32 + q.1) := by
    unfold RegionTimestamps.diffs
    rw [List.pairwise_map]
    have hfilter := (List.pairwise_lt_range 1024).sublist
      (List.filter_sublist (l := List.range 1024)
        (p := fun i => decide (0 < rt.to_tsarray i ∧ rt.to_tsarray i ≠
          snapshot_tsarray other i)))
    refine hfilter.imp ?_
    intro i j hij
    show i / 32 * 32 + i % 32 < j / 32 * 32 + j % 32
    omega
  exact ⟨hpair, hpair.imp (by rintro a b h rfl; exact lt_irrefl _ h)⟩

/-- C5: snapshot persistence round-trips: writing a table with `save_cache`
and reading the bytes back with `from_cachedata` returns a table with
identical 4096-byte raw data (hence equal under the `PartialEq` of
`RegionTimestamps`). -/
theorem c5_snapshot_roundtrip (rt : RegionTimestamps) :
    RegionTimestamps.from_cachedata rt.save_cache = some rt := by
  unfold RegionTimestamps.from_cachedata RegionTimestamps.new RegionTimestamps.save_cache
  rw [if_pos (List.length_ofFn rt.rawdata).ge]
  refine congrArg some (RegionTimestamps.ext ?_)
  funext j
  simp only [List.getD_eq_getElem?_getD, List.getElem?_ofFn, List.ofFnNthVal]
  rw [dif_pos j.isLt]
  rfl

end DiffEngineTheorems

section ScannerTheorems

set_option maxRecDepth 100000 in
/-- C2 (refuting evidence): scanning a single region (0,0) whose only
changed chunk is (x=5, z=31) — the claim's own boundary case — adds
(5, 15), not (5, 0), to the work set of the south partition (0,1): the
source branches on `z <= 15` / `z - 16` (a 16-row grid) where the claim
(and the 32×32 timestamp table) requires `z < 31` / `z == 31`. -/
theorem c2_south_propagation_eval :
    (from_dimdir [(⟨0, 0⟩, tableChunk5_31, none)]).2 =
      [(⟨0, 0⟩, [⟨5, 31⟩]), (⟨0, 1⟩, [⟨5, 15⟩])] := by
  decide

end ScannerTheorems

section PipelineEvidenceTheorems

/-- C3 (refuting evidence): run a work map holding the single partition
(0,0) with the single chunk (0,20).  Immediately after that partition's
task performs its eviction (which here is also the end of the run), the
chunk cache still holds the keys (0,20) and (0,19) under (0,0) — rows 20
and 19, both `< 31`, which the claim requires to be evicted
unconditionally.  The source evicts only rows `< 15` (and row `15`
conditionally). -/
theorem c3_eviction_rows_below_31_eval :
    (render_all worldAllValid shade0 img0 [(⟨0, 0⟩, [⟨0, 20⟩])]).map
      (fun s => s.chunks.map Prod.fst) =
    .ok [(⟨0, 0⟩, ⟨0, 20⟩), (⟨0, 0⟩, ⟨0, 19⟩)] := by
  rfl

/-- C4 (refuting evidence): a run over the work map {(0,0) ↦ {(3,17)}}
completes every partition's task, yet the chunk cache ends nonempty (the
decoded keys (3,17) and (3,16) survive the final eviction because their
rows exceed the source's 15/16 thresholds and no southern partition ever
cleans them up). -/
theorem c4_cache_not_empty_after_run_eval :
    (render_all worldAllValid shade0 img0 [(⟨0, 0⟩, [⟨3, 17⟩])]).map
      (fun s => s.chunks.isEmpty) = .ok false := by
  rfl

/-- C7 counterexample: chunk (1,1) of region (0,0) holds stored data that
fails to decode.  Rendering the partition's work list [(1,1), (2,2)]
panics (`JavaChunk::from_bytes(..).unwrap()`, modelled as `Except.error`)
instead of skipping (1,1) and continuing with (2,2): a decode failure does
abort the partition's task, contradicting the claim. -/
theorem c7_decode_failure_aborts :
    render_region worldBadChunk shade0 emptyState ⟨0, 0⟩ [⟨1, 1⟩, ⟨2, 2⟩] (fun _ => 0) =
      .error () := by
  rfl

end PipelineEvidenceTheorems

section ProgressTheorems

/-- `alookup` finding a value means the pair is in the list. -/
theorem alookup_mem {α β : Type} [DecidableEq α] (k : α) (v : β) :
    ∀ (l : List (α × β)), alookup k l = some v → (k, v) ∈ l := by
  intro l
  induction l with
  | nil => intro h; cases h
  | cons p t ih =>
      obtain ⟨pk, pv⟩ := p
      intro h
      unfold alookup at h
      by_cases hk : pk = k
      · rw [if_pos hk] at h
        cases h
        rw [← hk]
        exact List.mem_cons_self _ _
      · rw [if_neg hk] at h
        exact List.mem_cons_of_mem _ (ih h)

/-- `alookup` misses exactly the keys without an entry. -/
theorem alookup_eq_none {α β : Type} [DecidableEq α] (k : α) :
    ∀ (l : List (α × β)), alookup k l = none ↔ ∀ v, (k, v) ∉ l := by
  intro l
  induction l with
  | nil => simp [alookup]
  | cons p t ih =>
      unfold alookup
      by_cases hk : p.1 = k
      · rw [if_pos hk]
        simp only [List.mem_cons]
        constructor
        · intro h; cases h
        · intro h
          exact absurd (Or.inl (by rw [← hk])) (h p.2)
      · rw [if_neg hk]
        rw [ih]
        constructor
        · intro h v hv
          rcases List.mem_cons.mp hv with h1 | h1
          · exact hk (congrArg Prod.fst h1).symm
          · exact h v h1
        · intro h v hv
          exact h v (List.mem_cons_of_mem _ hv)

/-- `get_region` returns exactly what the loader returns. -/
theorem get_region_fst (w : World) (s : RState) (rloc : RLoc) :
    (get_region w s rloc).1 = w rloc := by
  unfold get_region
  by_cases h : rloc ∈ s.regions
  · simp [h]
  · cases hw : w rloc <;> simp [h, hw]

/-- `get_region` only touches the region-handle cache. -/
theorem get_region_fields (w : World) (s : RState) (rloc : RLoc) :
    (get_region w s rloc).2.chunks = s.chunks ∧
    (get_region w s rloc).2.decodes = s.decodes ∧
    (get_region w s rloc).2.remind = s.remind ∧
    (get_region w s rloc).2.trace = s.trace := by
  unfold get_region
  by_cases h : rloc ∈ s.regions
  · simp [h]
  · cases hw : w rloc <;> simp [h, hw]

/-- Full case analysis of `get_chunk`: a cache hit returns the cached
chunk and leaves the state alone; a miss either finds nothing (no region
file or no stored data — state unchanged up to the region cache), panics
on undecodable data, or decodes, caches and logs exactly one new entry. -/
theorem get_chunk_spec (w : World) (s : RState) (rloc : RLoc) (cloc : CLoc) :
    (∃ data, alookup (rloc, cloc) s.chunks = some data ∧
      get_chunk w s rloc cloc = .ok (some data, s)) ∨
    (alookup (rloc, cloc) s.chunks = none ∧
      ((∃ s₂, get_chunk w s rloc cloc = .ok (none, s₂) ∧
          chunkAt w (rloc, cloc) = none ∧
          s₂.chunks = s.chunks ∧ s₂.decodes = s.decodes ∧
          s₂.remind = s.remind ∧ s₂.trace = s.trace) ∨
       (get_chunk w s rloc cloc = .error () ∧
          ∃ reg, w rloc = some reg ∧ reg cloc = RawChunk.invalid) ∨
       (∃ data s₂, get_chunk w s rloc cloc = .ok (some data, s₂) ∧
          chunkAt w (rloc, cloc) = some data ∧
          s₂.chunks = s.chunks ++ [((rloc, cloc), data)] ∧
          s₂.decodes = s.decodes ++ [(rloc, cloc)] ∧
          s₂.remind = s.remind ∧ s₂.trace = s.trace))) := by
  have hfst := get_region_fst w s rloc
  have hfields := get_region_fields w s rloc
  cases hl : alookup (rloc, cloc) s.chunks with
  | some data =>
      left
      exact ⟨data, rfl, by unfold get_chunk; rw [hl]⟩
  | none =>
      right
      refine ⟨rfl, ?_⟩
      cases hw : w rloc with
      | none =>
          left
          refine ⟨(get_region w s rloc).2, ?_, ?_, hfields.1, hfields.2.1,
            hfields.2.2.1, hfields.2.2.2⟩
          · unfold get_chunk
            simp only [hl, hfst, hw]
          · simp only [chunkAt, hw]
      | some reg =>
          cases hc : reg cloc with
          | absent =>
              left
              refine ⟨(get_region w s rloc).2, ?_, ?_, hfields.1, hfields.2.1,
                hfields.2.2.1, hfields.2.2.2⟩
              · unfold get_chunk
                simp only [hl, hfst, hw, hc]
              · simp only [chunkAt, hw, hc]
          | invalid =>
              right; left
              constructor
              · unfold get_chunk
                simp only [hl, hfst, hw, hc]
              · exact ⟨reg, rfl, hc⟩
          | valid data =>
              right; right
              refine ⟨data,
                { (get_region w s rloc).2 with
                    chunks := (get_region w s rloc).2.chunks ++ [((rloc, cloc), data)],
                    decodes := (get_region w s rloc).2.decodes ++ [(rloc, cloc)] },
                ?_, ?_, ?_, ?_, ?_, ?_⟩
              · unfold get_chunk
                simp only [hl, hfst, hw, hc]
              · simp only [chunkAt, hw, hc]
              · show (get_region w s rloc).2.chunks ++ _ = _
                rw [hfields.1]
              · show (get_region w s rloc).2.decodes ++ _ = _
                rw [hfields.2.1]
              · exact hfields.2.2.1
              · exact hfields.2.2.2

/-- A successful `get_chunk` leaves `remind` and `trace` unchanged. -/
theorem get_chunk_remind_trace (w : World) (s : RState) (rloc : RLoc) (cloc : CLoc)
    (out : Option Nat × RState) (h : get_chunk w s rloc cloc = .ok out) :
    out.2.remind = s.remind ∧ out.2.trace = s.trace := by
  rcases get_chunk_spec w s rloc cloc with
    ⟨data, _, hg⟩ | ⟨_, ⟨s₂, hg, _, _, _, hrem, htr⟩ | ⟨hg, _⟩ |
      ⟨data, s₂, hg, _, _, _, hrem, htr⟩⟩
  · rw [hg] at h
    cases h
    exact ⟨rfl, rfl⟩
  · rw [hg] at h
    cases h
    exact ⟨hrem, htr⟩
  · rw [hg] at h
    cases h
  · rw [hg] at h
    cases h
    exact ⟨hrem, htr⟩

/-- A successful `render_chunk` leaves `remind` and `trace` unchanged. -/
theorem render_chunk_remind_trace (w : World) (sh : Shade) (s : RState)
    (rloc : RLoc) (cloc : CLoc) (out : Option (Nat → Rgba) × RState)
    (h : render_chunk w sh s rloc cloc = .ok out) :
    out.2.remind = s.remind ∧ out.2.trace = s.trace := by
  unfold render_chunk at h
  cases h1 : get_chunk w s rloc cloc with
  | error e => rw [h1] at h; cases h
  | ok o1 =>
      rw [h1] at h
      have hfst := get_chunk_remind_trace w s rloc cloc o1 h1
      cases o1 with
      | mk res s' =>
        cases res with
        | none => cases h; exact hfst
        | some chunk =>
            simp only [] at h
            cases h2 : (if cloc.z = 0 then get_chunk w s' (rloc.offset 0 (-1)) ⟨cloc.x, 31⟩
                        else get_chunk w s' rloc ⟨cloc.x, cloc.z - 1⟩) with
            | error e => rw [h2] at h; cases h
            | ok o2 =>
                rw [h2] at h
                have hsnd : o2.2.remind = s'.remind ∧ o2.2.trace = s'.trace := by
                  by_cases hz : cloc.z = 0
                  · rw [if_pos hz] at h2
                    exact get_chunk_remind_trace w s' _ _ o2 h2
                  · rw [if_neg hz] at h2
                    exact get_chunk_remind_trace w s' _ _ o2 h2
                cases o2 with
                | mk north s'' =>
                  cases h
                  exact ⟨hsnd.1.trans hfst.1, hsnd.2.trans hfst.2⟩

/-- A successful `render_loop` appends one `Step` per chunk and leaves
`remind` unchanged. -/
theorem render_loop_trace_remind (w : World) (sh : Shade) (rloc : RLoc)
    (clocs : List CLoc) :
    ∀ (buf : Canvas) (s : RState) (out : Canvas × RState),
      render_loop w sh rloc clocs buf s = .ok out →
      out.2.trace = s.trace ++ clocs.map (fun _ => RegionProgress.step rloc) ∧
      out.2.remind = s.remind := by
  induction clocs with
  | nil =>
      intro buf s out h
      cases h
      simp [render_loop]
  | cons cloc rest ih =>
      intro buf s out h
      unfold render_loop at h
      cases h1 : render_chunk w sh s rloc cloc with
      | error e => rw [h1] at h; cases h
      | ok o1 =>
          rw [h1] at h
          have hrc := render_chunk_remind_trace w sh s rloc cloc o1 h1
          cases o1 with
          | mk res s' =>
            have htr : s'.trace = s.trace := hrc.2
            have hrem : s'.remind = s.remind := hrc.1
            cases res with
            | none =>
                have := ih buf { s' with trace := s'.trace ++ [.step rloc] } out h
                refine ⟨?_, this.2.trans hrem⟩
                rw [this.1]
                simp [htr]
            | some chunk_buf =>
                have := ih (blit cloc chunk_buf buf)
                  { s' with trace := s'.trace ++ [.step rloc] } out h
                refine ⟨?_, this.2.trans hrem⟩
                rw [this.1]
                simp [htr]

/-- A successful `render_region` appends `Begin` then the steps, leaving
`remind` unchanged. -/
theorem render_region_trace_remind (w : World) (sh : Shade) (s : RState)
    (rloc : RLoc) (clocs : List CLoc) (buf : Canvas) (out : Canvas × RState)
    (h : render_region w sh s rloc clocs buf = .ok out) :
    out.2.trace = s.trace ++ RegionProgress.begin rloc clocs.length ::
      clocs.map (fun _ => RegionProgress.step rloc) ∧
    out.2.remind = s.remind := by
  unfold render_region at h
  have := render_loop_trace_remind w sh rloc clocs buf _ out h
  refine ⟨?_, this.2⟩
  rw [this.1]
  simp

/-- A successful task appends exactly its partition's event block and
erases the partition from `remind`. -/
theorem render_task_trace_remind (w : World) (sh : Shade) (init_img : RLoc → Canvas)
    (s : RState) (rloc : RLoc) (clocs : List CLoc) (s' : RState)
    (h : render_task w sh init_img s rloc clocs = .ok s') :
    s'.trace = s.trace ++ regionBlock rloc clocs ∧
    s'.remind = s.remind.erase rloc := by
  unfold render_task at h
  cases h1 : render_region w sh s rloc clocs (init_img rloc) with
  | error e => rw [h1] at h; cases h
  | ok o1 =>
      rw [h1] at h
      have hrr := render_region_trace_remind w sh s rloc clocs (init_img rloc) o1 h1
      cases o1 with
      | mk img s₁ =>
        cases h
        constructor
        · show s₁.trace ++ [RegionProgress.endRegion rloc] = _
          rw [hrr.1]
          simp [regionBlock]
        · show s₁.remind.erase rloc = _
          rw [hrr.2]

/-- A successful fold of tasks appends the concatenation of the blocks. -/
theorem render_fold_trace (w : World) (sh : Shade) (init_img : RLoc → Canvas)
    (wm : List (RLoc × List CLoc)) :
    ∀ (s s' : RState),
      List.foldlM (fun s p => render_task w sh init_img s p.1 p.2) s wm = .ok s' →
      s'.trace = s.trace ++ wm.flatMap (fun p => regionBlock p.1 p.2) := by
  induction wm with
  | nil =>
      intro s s' h
      cases h
      simp
  | cons p rest ih =>
      intro s s' h
      rw [List.foldlM_cons] at h
      cases h1 : render_task w sh init_img s p.1 p.2 with
      | error e => rw [h1] at h; cases h
      | ok s₁ =>
          rw [h1] at h
          have hstep := render_task_trace_remind w sh init_img s p.1 p.2 s₁ h1
          have := ih s₁ s' h
          rw [this, hstep.1]
          simp

/-- A `Begin` event occurs in a partition block iff it is that partition's
own `Begin` with the block's chunk count. -/
theorem regionBlock_count_begin (r r' : RLoc) (n : Nat) (cs' : List CLoc) :
    (regionBlock r' cs').count (RegionProgress.begin r n) =
      if r' = r ∧ cs'.length = n then 1 else 0 := by
  have hsteps : List.count (RegionProgress.begin r n)
      (cs'.map fun _ => RegionProgress.step r') = 0 := by
    rw [List.count_eq_zero]
    intro hmem
    rcases List.mem_map.mp hmem with ⟨c, _, hc⟩
    cases hc
  simp only [regionBlock, List.count_cons, List.count_append, hsteps,
    List.count_nil]
  rw [if_neg (by simp : ¬(RegionProgress.endRegion r' ==
    RegionProgress.begin r n) = true)]
  by_cases h1 : r' = r ∧ cs'.length = n
  · rw [if_pos h1, if_pos (by rw [beq_iff_eq, h1.1, h1.2])]
  · rw [if_neg h1, if_neg]
    rw [beq_iff_eq]
    intro hp
    injection hp with ha hb
    exact h1 ⟨ha, hb⟩

/-- A `Step` event occurs in a partition block once per chunk of its own
partition. -/
theorem regionBlock_count_step (r r' : RLoc) (cs' : List CLoc) :
    (regionBlock r' cs').count (RegionProgress.step r) =
      if r' = r then cs'.length else 0 := by
  have hsteps : List.count (RegionProgress.step r)
      (cs'.map fun _ => RegionProgress.step r') =
        if r' = r then cs'.length else 0 := by
    induction cs' with
    | nil => simp
    | cons c t ih =>
        simp only [List.map_cons, List.count_cons, ih]
        by_cases h : r' = r
        · subst h
          simp
        · rw [if_neg h, if_neg h, if_neg (by
            rw [beq_iff_eq]
            intro hp
            injection hp with ha
            exact h ha)]
  simp only [regionBlock, List.count_cons, List.count_append, hsteps,
    List.count_nil]
  rw [if_neg (by simp : ¬(RegionProgress.endRegion r' ==
        RegionProgress.step r) = true),
    if_neg (by simp : ¬(RegionProgress.begin r' cs'.length ==
        RegionProgress.step r) = true)]
  by_cases h : r' = r <;> simp [h]

/-- An `End` event occurs in a partition block iff it is that partition's
own `End`. -/
theorem regionBlock_count_endRegion (r r' : RLoc) (cs' : List CLoc) :
    (regionBlock r' cs').count (RegionProgress.endRegion r) =
      if r' = r then 1 else 0 := by
  have hsteps : List.count (RegionProgress.endRegion r)
      (cs'.map fun _ => RegionProgress.step r') = 0 := by
    rw [List.count_eq_zero]
    intro hmem
    rcases List.mem_map.mp hmem with ⟨c, _, hc⟩
    cases hc
  simp only [regionBlock, List.count_cons, List.count_append, hsteps,
    List.count_nil]
  rw [if_neg (by simp : ¬(RegionProgress.begin r' cs'.length ==
    RegionProgress.endRegion r) = true)]
  by_cases h : r' = r
  · subst h
    simp
  · rw [if_neg h, if_neg (by
      rw [beq_iff_eq]
      intro hp
      injection hp with ha
      exact h ha)]

/-- No block contains `BeginAll` or `EndAll`. -/
theorem regionBlock_count_all_events (r' : RLoc) (cs' : List CLoc) (n : Nat) :
    (regionBlock r' cs').count (RegionProgress.beginAll n) = 0 ∧
    (regionBlock r' cs').count RegionProgress.endAll = 0 := by
  constructor <;>
  · rw [List.count_eq_zero]
    intro hmem
    simp only [regionBlock, List.mem_cons, List.mem_append, List.mem_map,
      List.mem_singleton] at hmem
    rcases hmem with h | ⟨c, _, h⟩ | h | h <;> cases h

/-- Counting an event over concatenated blocks that each avoid it. -/
theorem flatMap_count_zero (l : List (RLoc × List CLoc)) (ev : RegionProgress)
    (h : ∀ q ∈ l, (regionBlock q.1 q.2).count ev = 0) :
    (l.flatMap (fun q => regionBlock q.1 q.2)).count ev = 0 := by
  induction l with
  | nil => rfl
  | cons q rest ih =>
      rw [List.flatMap_cons, List.count_append, h q (List.mem_cons_self q rest),
        ih (fun q' hq' => h q' (List.mem_cons_of_mem _ hq'))]

/-- With duplicate-free keys, counting an event that only `p`'s own block
can contain reduces to counting inside that one block. -/
theorem flatMap_count_unique (wm : List (RLoc × List CLoc)) (p : RLoc × List CLoc)
    (ev : RegionProgress) (hnd : (wm.map Prod.fst).Nodup) (hp : p ∈ wm)
    (hother : ∀ q : RLoc × List CLoc, q.1 ≠ p.1 → (regionBlock q.1 q.2).count ev = 0) :
    (wm.flatMap (fun q => regionBlock q.1 q.2)).count ev =
      (regionBlock p.1 p.2).count ev := by
  induction wm with
  | nil => cases hp
  | cons q rest ih =>
      rw [List.flatMap_cons, List.count_append]
      rw [List.map_cons, List.nodup_cons] at hnd
      rcases List.mem_cons.mp hp with rfl | hp'
      · rw [flatMap_count_zero rest ev (fun q' hq' =>
          hother q' (fun heq => hnd.1 (heq ▸ List.mem_map_of_mem Prod.fst hq')))]
        omega
      · rw [ih hnd.2 hp',
          hother q (fun heq => hnd.1 (heq ▸ List.mem_map_of_mem Prod.fst hp'))]
        omega

/-- C6: in the progress stream of a completed run, `BeginAll(total)` is the
strictly first event with `total` the summed work-set sizes, `EndAll` is
the strictly last, the events in between are exactly the per-partition
blocks `Begin(p, count) · Step(p)^count · End(p)` (contiguous, since the
pool has width one), and for each work-map partition the stream carries
exactly one `Begin(p, count)`, exactly `count` `Step(p)` and exactly one
`End(p)`. -/
theorem c6_progress_stream (w : World) (sh : Shade) (init_img : RLoc → Canvas)
    (wm : List (RLoc × List CLoc)) (s : RState)
    (hnodup : (wm.map Prod.fst).Nodup)
    (hrun : render_all w sh init_img wm = .ok s) :
    s.trace =
      RegionProgress.beginAll ((wm.map fun p => p.2.length).sum) ::
        (wm.flatMap (fun p => regionBlock p.1 p.2) ++ [RegionProgress.endAll]) ∧
    s.trace.count (RegionProgress.beginAll ((wm.map fun p => p.2.length).sum)) = 1 ∧
    s.trace.count RegionProgress.endAll = 1 ∧
    ∀ p ∈ wm,
      s.trace.count (RegionProgress.begin p.1 p.2.length) = 1 ∧
      s.trace.count (RegionProgress.step p.1) = p.2.length ∧
      s.trace.count (RegionProgress.endRegion p.1) = 1 := by
  have htrace : s.trace =
      RegionProgress.beginAll ((wm.map fun p => p.2.length).sum) ::
        (wm.flatMap (fun p => regionBlock p.1 p.2) ++ [RegionProgress.endAll]) := by
    unfold render_all at hrun
    cases hfold : List.foldlM (fun s p => render_task w sh init_img s p.1 p.2)
        { regions := [], chunks := [], decodes := [],
          remind := wm.map Prod.fst,
          trace := [.beginAll ((wm.map (fun p => p.2.length)).sum)] } wm with
    | error e => rw [hfold] at hrun; cases hrun
    | ok sf =>
        rw [hfold] at hrun
        cases hrun
        have := render_fold_trace w sh init_img wm _ sf hfold
        show sf.trace ++ [RegionProgress.endAll] = _
        rw [this]
        simp
  refine ⟨htrace, ?_, ?_, ?_⟩
  · rw [htrace, List.count_cons, List.count_append,
      flatMap_count_zero _ _ (fun q _ =>
        (regionBlock_count_all_events q.1 q.2 ((wm.map fun p => p.2.length).sum)).1)]
    simp
  · rw [htrace, List.count_cons, List.count_append,
      flatMap_count_zero _ _ (fun q _ =>
        (regionBlock_count_all_events q.1 q.2 0).2)]
    simp
  · intro p hp
    refine ⟨?_, ?_, ?_⟩
    · rw [htrace, List.count_cons, List.count_append,
        flatMap_count_unique wm p _ hnodup hp (fun q hq => by
          rw [regionBlock_count_begin, if_neg (fun hqp => hq hqp.1)]),
        regionBlock_count_begin, if_pos ⟨rfl, rfl⟩]
      simp
    · rw [htrace, List.count_cons, List.count_append,
        flatMap_count_unique wm p _ hnodup hp (fun q hq => by
          rw [regionBlock_count_step, if_neg hq]),
        regionBlock_count_step, if_pos rfl]
      simp
    · rw [htrace, List.count_cons, List.count_append,
        flatMap_count_unique wm p _ hnodup hp (fun q hq => by
          rw [regionBlock_count_endRegion, if_neg hq]),
        regionBlock_count_endRegion, if_pos rfl]
      simp

/-- Witness for C6: the one-partition run over `wmOne` satisfies the
progress-stream properties. -/
theorem c6_progress_stream_witness :
    sOne.trace =
      RegionProgress.beginAll ((wmOne.map fun p => p.2.length).sum) ::
        (wmOne.flatMap (fun p => regionBlock p.1 p.2) ++ [RegionProgress.endAll]) ∧
    sOne.trace.count (RegionProgress.beginAll ((wmOne.map fun p => p.2.length).sum)) = 1 ∧
    sOne.trace.count RegionProgress.endAll = 1 ∧
    ∀ p ∈ wmOne,
      sOne.trace.count (RegionProgress.begin p.1 p.2.length) = 1 ∧
      sOne.trace.count (RegionProgress.step p.1) = p.2.length ∧
      sOne.trace.count (RegionProgress.endRegion p.1) = 1 :=
  c6_progress_stream worldAllValid shade0 img0 wmOne sOne (by decide) (by rfl)

end ProgressTheorems

section SkipTheorems

/-- Under a world with no undecodable data, `get_chunk` never panics. -/
theorem get_chunk_ok (w : World) (s : RState) (rloc : RLoc) (cloc : CLoc)
    (hw : ∀ r reg c, w r = some reg → reg c ≠ RawChunk.invalid) :
    ∃ out, get_chunk w s rloc cloc = .ok out := by
  rcases get_chunk_spec w s rloc cloc with
    ⟨data, _, hg⟩ | ⟨_, ⟨s₂, hg, _⟩ | ⟨_, reg, hwr, hc⟩ | ⟨data, s₂, hg, _⟩⟩
  · exact ⟨_, hg⟩
  · exact ⟨_, hg⟩
  · exact absurd hc (hw rloc reg cloc hwr)
  · exact ⟨_, hg⟩

/-- Under a consistent cache, a successful `get_chunk` returns exactly the
world's chunk at the key and keeps the cache consistent. -/
theorem get_chunk_consistent (w : World) (s : RState) (rloc : RLoc) (cloc : CLoc)
    (out : Option Nat × RState)
    (hcons : ChunksConsistent w s.chunks)
    (hok : get_chunk w s rloc cloc = .ok out) :
    out.1 = chunkAt w (rloc, cloc) ∧ ChunksConsistent w out.2.chunks := by
  rcases get_chunk_spec w s rloc cloc with
    ⟨data, hl, hg⟩ |
    ⟨hl, ⟨s₂, hg, hat, hch, _, _, _⟩ | ⟨hg, _⟩ | ⟨data, s₂, hg, hat, hch, _, _, _⟩⟩
  · rw [hg] at hok
    cases hok
    exact ⟨(hcons _ (alookup_mem _ _ _ hl)).symm, hcons⟩
  · rw [hg] at hok
    cases hok
    refine ⟨hat.symm, ?_⟩
    intro p hp
    rw [hch] at hp
    exact hcons p hp
  · rw [hg] at hok
    cases hok
  · rw [hg] at hok
    cases hok
    refine ⟨hat.symm, ?_⟩
    intro p hp
    rw [hch] at hp
    rcases List.mem_append.mp hp with h | h
    · exact hcons p h
    · rw [List.mem_singleton.mp h]
      exact hat

/-- Under a no-panic world and a consistent cache, `render_chunk` succeeds,
keeps the cache consistent, renders only chunks the world holds, and skips
exactly the chunks the world lacks. -/
theorem render_chunk_ok_consistent (w : World) (sh : Shade) (s : RState)
    (rloc : RLoc) (cloc : CLoc)
    (hw : ∀ r reg c, w r = some reg → reg c ≠ RawChunk.invalid)
    (hcons : ChunksConsistent w s.chunks) :
    ∃ out, render_chunk w sh s rloc cloc = .ok out ∧
      ChunksConsistent w out.2.chunks ∧
      (out.1.isSome → (chunkAt w (rloc, cloc)).isSome) ∧
      (chunkAt w (rloc, cloc) = none → out.1 = none) := by
  obtain ⟨out1, h1⟩ := get_chunk_ok w s rloc cloc hw
  obtain ⟨hres1, hcons1⟩ := get_chunk_consistent w s rloc cloc out1 hcons h1
  obtain ⟨res1, s1⟩ := out1
  cases res1 with
  | none =>
      refine ⟨(none, s1), ?_, hcons1, ?_, fun _ => rfl⟩
      · unfold render_chunk
        rw [h1]
      · intro hs
        cases hs
  | some chunk =>
      by_cases hz : cloc.z = 0
      · obtain ⟨out2, h2⟩ := get_chunk_ok w s1 (rloc.offset 0 (-1)) ⟨cloc.x, 31⟩ hw
        obtain ⟨_, hcons2⟩ :=
          get_chunk_consistent w s1 (rloc.offset 0 (-1)) ⟨cloc.x, 31⟩ out2 hcons1 h2
        obtain ⟨north, s2⟩ := out2
        refine ⟨(some (sh chunk north), s2), ?_, hcons2, ?_, ?_⟩
        · simp only [render_chunk, h1, if_pos hz, h2]
        · intro _
          rw [← hres1]
          rfl
        · intro hat
          rw [hat] at hres1
          cases hres1
      · obtain ⟨out2, h2⟩ := get_chunk_ok w s1 rloc ⟨cloc.x, cloc.z - 1⟩ hw
        obtain ⟨_, hcons2⟩ :=
          get_chunk_consistent w s1 rloc ⟨cloc.x, cloc.z - 1⟩ out2 hcons1 h2
        obtain ⟨north, s2⟩ := out2
        refine ⟨(some (sh chunk north), s2), ?_, hcons2, ?_, ?_⟩
        · simp only [render_chunk, h1, if_neg hz, h2]
        · intro _
          rw [← hres1]
          rfl
        · intro hat
          rw [hat] at hres1
          cases hres1

/-- Patch blocks of distinct sub-units are disjoint: a canvas index lies in
at most one sub-unit's block. -/
theorem inBlock_unique (c c' : CLoc) (idx : Nat)
    (h : inBlock c idx) (h' : inBlock c' idx) : c = c' := by
  obtain ⟨_, hz, hx⟩ := h
  obtain ⟨_, hz', hx'⟩ := h'
  ext
  · exact hx.symm.trans hx'
  · exact hz.symm.trans hz'

/-- A canvas index `blit` changes lies in the blitted sub-unit's block. -/
theorem blit_ne (cloc : CLoc) (patch : Nat → Rgba) (buf : Canvas) (idx : Nat)
    (h : blit cloc patch buf idx ≠ buf idx) : inBlock cloc idx := by
  unfold blit at h
  by_cases hc : idx < 512 * 512 ∧ idx / 512 / 16 = cloc.z ∧ idx % 512 / 16 = cloc.x
  · exact hc
  · rw [if_neg hc] at h
    exact absurd rfl h

/-- Under a no-panic world and a consistent cache, the render loop
succeeds, and the only canvas indices it changes lie in blocks of listed
sub-units whose data the world actually holds. -/
theorem render_loop_skip (w : World) (sh : Shade) (rloc : RLoc)
    (hw : ∀ r reg c, w r = some reg → reg c ≠ RawChunk.invalid)
    (clocs : List CLoc) :
    ∀ (buf : Canvas) (s : RState),
      ChunksConsistent w s.chunks →
      ∃ out, render_loop w sh rloc clocs buf s = .ok out ∧
        ChunksConsistent w out.2.chunks ∧
        ∀ idx, out.1 idx ≠ buf idx →
          ∃ c ∈ clocs, inBlock c idx ∧ chunkAt w (rloc, c) ≠ none := by
  induction clocs with
  | nil =>
      intro buf s hcons
      exact ⟨(buf, s), rfl, hcons, fun idx h => absurd rfl h⟩
  | cons c rest ih =>
      intro buf s hcons
      obtain ⟨out1, h1, hcons1, hsome, _⟩ :=
        render_chunk_ok_consistent w sh s rloc c hw hcons
      obtain ⟨res1, s1⟩ := out1
      cases res1 with
      | none =>
          obtain ⟨out, hloop, hcons2, hcanvas⟩ :=
            ih buf { s1 with trace := s1.trace ++ [.step rloc] } hcons1
          refine ⟨out, ?_, hcons2, ?_⟩
          · unfold render_loop
            rw [h1]
            exact hloop
          · intro idx h
            obtain ⟨c', hc', hb, hat⟩ := hcanvas idx h
            exact ⟨c', List.mem_cons_of_mem _ hc', hb, hat⟩
      | some patch =>
          obtain ⟨out, hloop, hcons2, hcanvas⟩ :=
            ih (blit c patch buf) { s1 with trace := s1.trace ++ [.step rloc] } hcons1
          refine ⟨out, ?_, hcons2, ?_⟩
          · unfold render_loop
            rw [h1]
            exact hloop
          · intro idx h
            by_cases hb : out.1 idx = blit c patch buf idx
            · have hblit : blit c patch buf idx ≠ buf idx := by
                rw [← hb]
                exact h
              refine ⟨c, List.mem_cons_self .., blit_ne c patch buf idx hblit, ?_⟩
              have hsm := hsome rfl
              intro hat
              rw [hat] at hsm
              cases hsm
            · obtain ⟨c', hc', hbk, hat⟩ := hcanvas idx hb
              exact ⟨c', List.mem_cons_of_mem _ hc', hbk, hat⟩

/-- C7 (amended): under a world whose stored data never fails to decode,
rendering a partition succeeds; every listed sub-unit gets its `Step`
event (the partition is fully traversed); and every sub-unit whose raw
data is absent — missing region file or no stored chunk — is skipped,
leaving its canvas block untouched. -/
theorem c7_absent_data_skips_and_continues (w : World) (sh : Shade) (s : RState)
    (rloc : RLoc) (clocs : List CLoc) (buf : Canvas)
    (hw : ∀ r reg c, w r = some reg → reg c ≠ RawChunk.invalid)
    (hcons : ChunksConsistent w s.chunks) :
    ∃ buf' s',
      render_region w sh s rloc clocs buf = .ok (buf', s') ∧
      s'.trace = s.trace ++ RegionProgress.begin rloc clocs.length ::
        clocs.map (fun _ => RegionProgress.step rloc) ∧
      ∀ c ∈ clocs, chunkAt w (rloc, c) = none →
        ∀ idx, inBlock c idx → buf' idx = buf idx := by
  obtain ⟨out, hloop, _, hcanvas⟩ := render_loop_skip w sh rloc hw clocs buf
    { s with trace := s.trace ++ [.begin rloc clocs.length] } hcons
  obtain ⟨buf', s'⟩ := out
  have hregion : render_region w sh s rloc clocs buf = .ok (buf', s') := hloop
  have htr := render_region_trace_remind w sh s rloc clocs buf (buf', s') hregion
  refine ⟨buf', s', hregion, htr.1, ?_⟩
  intro c hc hat idx hin
  by_contra hne
  obtain ⟨c', hc', hin', hat'⟩ := hcanvas idx hne
  rw [inBlock_unique c c' idx hin hin'] at hat
  exact hat' hat

/-- Witness for C7 (amended): region (0,0) has chunk (0,0) absent and
chunk (1,0) present; rendering `[(0,0), (1,0)]` succeeds, emits both
steps, and leaves the block of (0,0) of the identity canvas untouched. -/
theorem c7_absent_data_skips_and_continues_witness :
    ∃ buf' s',
      render_region worldOneAbsent shade0 emptyState ⟨0, 0⟩ [⟨0, 0⟩, ⟨1, 0⟩]
        (fun idx => idx) = .ok (buf', s') ∧
      s'.trace = emptyState.trace ++ RegionProgress.begin ⟨0, 0⟩
          ([⟨0, 0⟩, ⟨1, 0⟩] : List CLoc).length ::
        ([⟨0, 0⟩, ⟨1, 0⟩] : List CLoc).map (fun _ => RegionProgress.step ⟨0, 0⟩) ∧
      ∀ c ∈ ([⟨0, 0⟩, ⟨1, 0⟩] : List CLoc),
        chunkAt worldOneAbsent (⟨0, 0⟩, c) = none →
        ∀ idx, inBlock c idx → buf' idx = idx :=
  c7_absent_data_skips_and_continues worldOneAbsent shade0 emptyState ⟨0, 0⟩
    [⟨0, 0⟩, ⟨1, 0⟩] (fun idx => idx)
    (by
      intro r reg c h
      by_cases hr : r = (⟨0, 0⟩ : RLoc)
      · simp only [worldOneAbsent, if_pos hr] at h
        injection h with h
        subst h
        by_cases hc : c = (⟨0, 0⟩ : CLoc) <;> simp [hc]
      · simp only [worldOneAbsent, if_neg hr] at h
        exact Option.noConfusion h)
    (by
      intro p hp
      cases hp)

end SkipTheorems

section MemoizationTheorems

/-- A `get_chunk` issued by the task of partition `cur` for one of the keys
it may request preserves the run invariant. -/
theorem get_chunk_inv (w : World) (s : RState) (cur rloc : RLoc) (cloc : CLoc)
    (rest : List RLoc) (out : Option Nat × RState)
    (hinv : RunInv w (cur :: rest) s)
    (hreq : taskRequests cur (rloc, cloc))
    (hok : get_chunk w s rloc cloc = .ok out) :
    RunInv w (cur :: rest) out.2 := by
  rcases get_chunk_spec w s rloc cloc with
    ⟨data, hl, hg⟩ |
    ⟨hl, ⟨s₂, hg, hat, hch, hdec, hrem, htr⟩ | ⟨hg, _⟩ |
      ⟨data, s₂, hg, hat, hch, hdec, hrem, htr⟩⟩
  · rw [hg] at hok
    cases hok
    exact hinv
  · rw [hg] at hok
    cases hok
    refine ⟨?_, ?_, ?_, ?_, ?_⟩
    · rw [hdec]
      exact hinv.nodupDecodes
    · intro k hk
      rw [hdec] at hk
      rcases hinv.decodedInCacheOrDead k hk with ⟨d, hd⟩ | hdead
      · exact Or.inl ⟨d, by rw [hch]; exact hd⟩
      · exact Or.inr hdead
    · intro p hp
      rw [hch] at hp
      rw [hdec]
      exact hinv.cacheDecoded p hp
    · intro p hp
      rw [hch] at hp
      exact hinv.consistent p hp
    · exact hrem.trans hinv.remindEq
  · rw [hg] at hok
    cases hok
  · rw [hg] at hok
    cases hok
    have hnewdec : (rloc, cloc) ∉ s.decodes := by
      intro hmem
      rcases hinv.decodedInCacheOrDead _ hmem with ⟨d, hd⟩ | hdead
      · exact (alookup_eq_none (rloc, cloc) s.chunks).mp hl d hd
      · exact hdead cur (List.mem_cons_self ..) hreq
    refine ⟨?_, ?_, ?_, ?_, ?_⟩
    · rw [hdec, List.nodup_append]
      refine ⟨hinv.nodupDecodes, List.nodup_singleton _, ?_⟩
      intro a ha hb
      rw [List.mem_singleton] at hb
      subst hb
      exact hnewdec ha
    · intro k hk
      rw [hdec] at hk
      rcases List.mem_append.mp hk with hk | hk
      · rcases hinv.decodedInCacheOrDead k hk with ⟨d, hd⟩ | hdead
        · exact Or.inl ⟨d, by rw [hch]; exact List.mem_append_left _ hd⟩
        · exact Or.inr hdead
      · rw [List.mem_singleton] at hk
        subst hk
        exact Or.inl ⟨data, by
          rw [hch]
          exact List.mem_append_right _ (List.mem_singleton_self _)⟩
    · intro p hp
      rw [hch] at hp
      rw [hdec]
      rcases List.mem_append.mp hp with hp | hp
      · exact List.mem_append_left _ (hinv.cacheDecoded p hp)
      · rw [List.mem_singleton] at hp
        subst hp
        exact List.mem_append_right _ (List.mem_singleton_self _)
    · intro p hp
      rw [hch] at hp
      rcases List.mem_append.mp hp with hp | hp
      · exact hinv.consistent p hp
      · rw [List.mem_singleton] at hp
        subst hp
        exact hat
    · exact hrem.trans hinv.remindEq

/-- `render_chunk` issued by `cur`'s task on one of its own chunks
preserves the run invariant (both the chunk fetch and the north-context
fetch stay inside `taskRequests cur`). -/
theorem render_chunk_inv (w : World) (sh : Shade) (s : RState) (cur : RLoc)
    (cloc : CLoc) (rest : List RLoc) (out : Option (Nat → Rgba) × RState)
    (hinv : RunInv w (cur :: rest) s)
    (hok : render_chunk w sh s cur cloc = .ok out) :
    RunInv w (cur :: rest) out.2 := by
  unfold render_chunk at hok
  cases h1 : get_chunk w s cur cloc with
  | error e => rw [h1] at hok; cases hok
  | ok o1 =>
      rw [h1] at hok
      have hinv1 : RunInv w (cur :: rest) o1.2 :=
        get_chunk_inv w s cur cur cloc rest o1 hinv (Or.inl rfl) h1
      cases o1 with
      | mk res s1 =>
        cases res with
        | none =>
            cases hok
            exact hinv1
        | some chunk =>
            simp only [] at hok
            cases h2 : (if cloc.z = 0 then get_chunk w s1 (cur.offset 0 (-1)) ⟨cloc.x, 31⟩
                        else get_chunk w s1 cur ⟨cloc.x, cloc.z - 1⟩) with
            | error e => rw [h2] at hok; cases hok
            | ok o2 =>
                rw [h2] at hok
                have hinv2 : RunInv w (cur :: rest) o2.2 := by
                  by_cases hz : cloc.z = 0
                  · rw [if_pos hz] at h2
                    exact get_chunk_inv w s1 cur (cur.offset 0 (-1)) ⟨cloc.x, 31⟩
                      rest o2 hinv1 (Or.inr ⟨rfl, rfl⟩) h2
                  · rw [if_neg hz] at h2
                    exact get_chunk_inv w s1 cur cur ⟨cloc.x, cloc.z - 1⟩
                      rest o2 hinv1 (Or.inl rfl) h2
                cases o2 with
                | mk north s2 =>
                  cases hok
                  exact hinv2

/-- The render loop of `cur`'s task preserves the run invariant. -/
theorem render_loop_inv (w : World) (sh : Shade) (cur : RLoc) (rest : List RLoc)
    (clocs : List CLoc) :
    ∀ (buf : Canvas) (s : RState) (out : Canvas × RState),
      RunInv w (cur :: rest) s →
      render_loop w sh cur clocs buf s = .ok out →
      RunInv w (cur :: rest) out.2 := by
  induction clocs with
  | nil =>
      intro buf s out hinv h
      cases h
      exact hinv
  | cons c cs ih =>
      intro buf s out hinv h
      unfold render_loop at h
      cases h1 : render_chunk w sh s cur c with
      | error e => rw [h1] at h; cases h
      | ok o1 =>
          rw [h1] at h
          have hinv1 : RunInv w (cur :: rest) o1.2 :=
            render_chunk_inv w sh s cur c rest o1 hinv h1
          cases o1 with
          | mk res s1 =>
            cases res with
            | none =>
                refine ih buf { s1 with trace := s1.trace ++ [.step cur] } out ?_ h
                exact ⟨hinv1.nodupDecodes, hinv1.decodedInCacheOrDead,
                  hinv1.cacheDecoded, hinv1.consistent, hinv1.remindEq⟩
            | some chunk_buf =>
                refine ih (blit c chunk_buf buf)
                  { s1 with trace := s1.trace ++ [.step cur] } out ?_ h
                exact ⟨hinv1.nodupDecodes, hinv1.decodedInCacheOrDead,
                  hinv1.cacheDecoded, hinv1.consistent, hinv1.remindEq⟩

/-- One full task preserves the invariant, retiring its partition: the
eviction step only removes keys no remaining task can request. -/
theorem render_task_inv (w : World) (sh : Shade) (init_img : RLoc → Canvas)
    (s : RState) (cur : RLoc) (clocs : List CLoc) (rest : List RLoc) (s' : RState)
    (hinv : RunInv w (cur :: rest) s)
    (hnd : (cur :: rest).Nodup)
    (hok : render_task w sh init_img s cur clocs = .ok s') :
    RunInv w rest s' := by
  unfold render_task at hok
  cases h1 : render_region w sh s cur clocs (init_img cur) with
  | error e => rw [h1] at hok; cases hok
  | ok o1 =>
      rw [h1] at hok
      cases o1 with
      | mk img s₁ =>
        have hinv1 : RunInv w (cur :: rest) s₁ := by
          have hstart : RunInv w (cur :: rest)
              { s with trace := s.trace ++ [.begin cur clocs.length] } :=
            ⟨hinv.nodupDecodes, hinv.decodedInCacheOrDead, hinv.cacheDecoded,
              hinv.consistent, hinv.remindEq⟩
          exact render_loop_inv w sh cur rest clocs (init_img cur) _ (img, s₁)
            hstart h1
        cases hok
        have hcur : cur ∉ rest := (List.nodup_cons.mp hnd).1
        have hrem : s₁.remind.erase cur = rest := by
          rw [hinv1.remindEq]
          exact List.erase_cons_head ..
        refine ⟨?_, ?_, ?_, ?_, ?_⟩
        · exact hinv1.nodupDecodes
        · intro k hk
          rcases hinv1.decodedInCacheOrDead k hk with ⟨d, hd⟩ | hdead
          · by_cases hC : (k.1 = cur ∧ k.2.z < 15) ∨
                (k.1 = cur ∧ k.2.z = 15 ∧
                  decide (cur.offset 0 1 ∈ s₁.remind.erase cur) = false) ∨
                (k.1 = cur.offset 0 (-1) ∧
                  decide (cur.offset 0 (-1) ∈ s₁.remind.erase cur) = false)
            · right
              intro r hr hreq
              rcases hC with ⟨hk1, hkz⟩ | ⟨hk1, hkz, _⟩ | ⟨hk1, hn⟩
              · rcases hreq with h | ⟨h, hz31⟩
                · exact hcur ((h.symm.trans hk1) ▸ hr)
                · omega
              · rcases hreq with h | ⟨h, hz31⟩
                · exact hcur ((h.symm.trans hk1) ▸ hr)
                · omega
              · rw [hrem] at hn
                have hnmem : cur.offset 0 (-1) ∉ rest := of_decide_eq_false hn
                rcases hreq with h | ⟨h, _⟩
                · exact hnmem ((h.symm.trans hk1) ▸ hr)
                · have hreq : r = cur := by
                    have h2 : r.offset 0 (-1) = cur.offset 0 (-1) := by
                      rw [← h, hk1]
                    unfold RLoc.offset at h2
                    injection h2 with hx hz
                    ext
                    · omega
                    · omega
                  exact hcur (hreq ▸ hr)
            · left
              refine ⟨d, List.mem_filter.mpr ⟨hd, ?_⟩⟩
              show (!decide _) = true
              rw [Bool.not_eq_true', decide_eq_false_iff_not]
              exact fun hC₀ => hC hC₀
          · exact Or.inr fun r hr => hdead r (List.mem_cons_of_mem _ hr)
        · intro p hp
          exact hinv1.cacheDecoded p (List.mem_filter.mp hp).1
        · intro p hp
          exact hinv1.consistent p (List.mem_filter.mp hp).1
        · exact hrem

/-- The sequential fold of all tasks preserves the invariant down to the
empty remaining set. -/
theorem render_fold_inv (w : World) (sh : Shade) (init_img : RLoc → Canvas)
    (wm : List (RLoc × List CLoc)) :
    ∀ (s s' : RState),
      RunInv w (wm.map Prod.fst) s →
      (wm.map Prod.fst).Nodup →
      List.foldlM (fun s p => render_task w sh init_img s p.1 p.2) s wm = .ok s' →
      RunInv w [] s' := by
  induction wm with
  | nil =>
      intro s s' hinv _ h
      cases h
      exact hinv
  | cons p rest ih =>
      intro s s' hinv hnd h
      rw [List.foldlM_cons] at h
      cases h1 : render_task w sh init_img s p.1 p.2 with
      | error e => rw [h1] at h; cases h
      | ok s₁ =>
          rw [h1] at h
          rw [List.map_cons] at hinv hnd
          exact ih s₁ s'
            (render_task_inv w sh init_img s p.1 p.2 _ s₁ hinv hnd h1)
            (List.nodup_cons.mp hnd).2 h

/-- On a duplicate-free list, every element is counted at most once. -/
theorem nodup_count_le_one {α : Type} [BEq α] [LawfulBEq α] (l : List α)
    (hl : l.Nodup) (a : α) : l.count a ≤ 1 := by
  induction l with
  | nil => simp
  | cons b t ih =>
      rw [List.count_cons]
      rw [List.nodup_cons] at hl
      by_cases hba : b = a
      · subst hba
        have hz : t.count b = 0 := by
          rw [List.count_eq_zero]
          exact hl.1
        simp [hz]
      · have hf : (b == a) = false := by
          rw [beq_eq_false_iff_ne]
          exact hba
        rw [hf]
        simp [ih hl.2]

/-- C9: over any completed run, every key is decoded at most once; the
cache only ever holds, for each key, the one chunk the world decodes to at
that key; and (the double-checked fetch, collapsed to one check by the
width-one pool) any successful `get_chunk` against a consistent cache
returns exactly that chunk — so all requesters of a key observe the same
handle.  The range hypothesis keeps the inputs inside the domain where the
embedding is faithful (out-of-range rows would panic in
`cloc.offset(0,-1).unwrap()` and overflow the canvas in the source). -/
theorem c9_memoized_single_decode (w : World) (sh : Shade) (init_img : RLoc → Canvas)
    (wm : List (RLoc × List CLoc)) (s : RState)
    (hnodup : (wm.map Prod.fst).Nodup)
    (hrange : ∀ p ∈ wm, ∀ c ∈ p.2, c.x < 32 ∧ c.z < 32)
    (hrun : render_all w sh init_img wm = .ok s) :
    (∀ k : RLoc × CLoc, s.decodes.count k ≤ 1) ∧
    (∀ p ∈ s.chunks, chunkAt w p.1 = some p.2) ∧
    (∀ (s₁ : RState) (rloc : RLoc) (cloc : CLoc) (out : Option Nat × RState),
      ChunksConsistent w s₁.chunks →
      get_chunk w s₁ rloc cloc = .ok out →
      out.1 = chunkAt w (rloc, cloc)) := by
  unfold render_all at hrun
  cases hfold : List.foldlM (fun s p => render_task w sh init_img s p.1 p.2)
      { regions := [], chunks := [], decodes := [],
        remind := wm.map Prod.fst,
        trace := [.beginAll ((wm.map (fun p => p.2.length)).sum)] } wm with
  | error e => rw [hfold] at hrun; cases hrun
  | ok sf =>
      rw [hfold] at hrun
      cases hrun
      have hinv0 : RunInv w (wm.map Prod.fst)
          { regions := [], chunks := [], decodes := [],
            remind := wm.map Prod.fst,
            trace := [.beginAll ((wm.map (fun p => p.2.length)).sum)] } := by
        refine ⟨List.nodup_nil, ?_, ?_, ?_, rfl⟩
        · intro k hk
          cases hk
        · intro p hp
          cases hp
        · intro p hp
          cases hp
      have hfin := render_fold_inv w sh init_img wm _ sf hinv0 hnodup hfold
      refine ⟨?_, ?_, ?_⟩
      · intro k
        exact nodup_count_le_one _ hfin.nodupDecodes k
      · intro p hp
        exact hfin.consistent p hp
      · intro s₁ rloc cloc out hc hok
        exact (get_chunk_consistent w s₁ rloc cloc out hc hok).1

/-- Witness for C9: the two-chunk run over `wmTwo` — where the second
chunk's north context hits the cache — decodes each key at most once. -/
theorem c9_memoized_single_decode_witness :
    (∀ k : RLoc × CLoc, sTwo.decodes.count k ≤ 1) ∧
    (∀ p ∈ sTwo.chunks, chunkAt worldAllValid p.1 = some p.2) ∧
    (∀ (s₁ : RState) (rloc : RLoc) (cloc : CLoc) (out : Option Nat × RState),
      ChunksConsistent worldAllValid s₁.chunks →
      get_chunk worldAllValid s₁ rloc cloc = .ok out →
      out.1 = chunkAt worldAllValid (rloc, cloc)) :=
  c9_memoized_single_decode worldAllValid shade0 img0 wmTwo sTwo
    (by decide) (by decide) (by rfl)

end MemoizationTheorems

section CacheModeTheorems

/-- C8: under the read-only cache mode (`cache_ro`, main.rs:108) the scan
loads and diffs existing snapshots exactly as the default mode does
(`nocache` is false for both, main.rs:107), and the per-partition snapshot
persistence step (modelled from the spec, the five-argument `Dimension` is
not in src/) writes nothing, for every partition. -/
theorem c8_read_only_no_writes
    (regions : List (RLoc × RegionTimestamps × Option RegionTimestamps))
    (rloc : RLoc) (timestamps : List (RLoc × RegionTimestamps)) :
    from_dimdir_with_mode CacheMode.readOnly regions =
      from_dimdir_with_mode CacheMode.default regions ∧
    save_cache_for_region CacheMode.readOnly rloc timestamps = [] := by
  constructor
  · rfl
  · unfold save_cache_for_region
    rw [if_pos (Or.inl rfl)]

end CacheModeTheorems
